import Mathlib

/-! Verification of the deduplicating file store in `backend/files`
(`models.py`, `serializers.py`, `views.py`): the `File` data model, the
upload (ingest) path, the delete path with reference counting, and the
storage statistics, together with the invariants that hold in every
state reachable through the API operations. -/

namespace SmartVault

/-- Byte content of an uploaded file (models the raw stream as a list of
byte values). -/
abbrev Bytes := List Nat

/-- One row of the `File` model (`models.py`, `class File`).
`filePath` models the `file` field's storage path; `referenceFile`
stores the id of the referenced original (`reference_file_id`). -/
structure FileRec where
  id : Nat
  originalFilename : String
  fileType : String
  size : Int
  uploadedAt : Nat
  contentHash : String
  referenceFile : Option Nat
  isDuplicate : Bool
  actualSize : Int
  referenceCount : Nat
  filePath : Nat
  deriving DecidableEq

/-- Persistent state: the `File` table, the set of blob-store paths that
hold bytes, and counters supplying fresh ids and `uploaded_at` stamps
(`uuid4` primary keys and `auto_now_add` timestamps are modelled by
strictly increasing counters). -/
structure DB where
  files : List FileRec
  blobs : List Nat
  nextId : Nat
  clock : Nat
  deriving DecidableEq

def initDB : DB := ⟨[], [], 0, 0⟩

/-- The filter `content_hash=h, is_duplicate=False` shared by
`File.find_duplicate` and `File.find_duplicate_by_content`. -/
def matchesHash (h : String) (f : FileRec) : Bool :=
  f.contentHash == h && !f.isDuplicate

/-- `.first()` under the model's default ordering
`Meta.ordering = ['-uploaded_at']` (`models.py` line 36): the match with
the greatest `uploaded_at`. -/
def pickNewest : List FileRec → Option FileRec
  | [] => none
  | r :: rest =>
    match pickNewest rest with
    | none => some r
    | some b => if b.uploadedAt ≤ r.uploadedAt then some r else some b

/-- `.order_by('uploaded_at').first()`: the match with the least
`uploaded_at`. -/
def pickOldest : List FileRec → Option FileRec
  | [] => none
  | r :: rest =>
    match pickOldest rest with
    | none => some r
    | some b => if r.uploadedAt ≤ b.uploadedAt then some r else some b

/-- `File.find_duplicate` (`models.py` lines 184-186):
`cls.objects.filter(content_hash=file_hash, is_duplicate=False).first()`
under the default newest-first ordering. -/
def find_duplicate (db : DB) (h : String) : Option FileRec :=
  pickNewest (db.files.filter (matchesHash h))

/-- `File.find_duplicate_by_content` (`models.py` lines 188-200): empty
hash guard, then the earliest-uploaded non-duplicate match. -/
def find_duplicate_by_content (db : DB) (h : String) : Option FileRec :=
  if h = "" then none
  else pickOldest (db.files.filter (matchesHash h))

/-- Bytes of a Python string, used by the fallback-hash expression. -/
def encodeStr (s : String) : Bytes := s.data.map Char.toNat

/-- `File.calculate_hash` (`models.py` lines 41-97), parametrised by the
SHA-256 function `sha`. A readable stream (`content = some bytes`)
yields `sha bytes`; an unreadable stream (`content = none`, every read
attempt raises) is caught by the outer `except` and replaced by the
fallback digest `sha256(f"(filename)_(size)_(uuid)")`, a value not
derived from the file's content. -/
def calculate_hash (sha : Bytes → String) (content : Option Bytes)
    (filename : String) (size : Int) (uuid : String) : String :=
  match content with
  | some bytes => sha bytes
  | none => sha (encodeStr (filename ++ "_" ++ toString size ++ "_" ++ uuid))

/-- The per-row update performed by the `update_file_references`
post-save signal handler (`models.py` lines 290-301). -/
def incFun (oid : Nat) (f : FileRec) : FileRec :=
  if f.id = oid then { f with referenceCount := f.referenceCount + 1 } else f

def incRef (files : List FileRec) (oid : Nat) : List FileRec :=
  files.map (incFun oid)

/-- The per-row update performed by `File.delete` on the referenced
original (`models.py` lines 154-158): decrement only when the count is
positive. -/
def decFun (oid : Nat) (f : FileRec) : FileRec :=
  if f.id = oid then
    if 0 < f.referenceCount then { f with referenceCount := f.referenceCount - 1 }
    else f
  else f

def decRefFloor (files : List FileRec) (oid : Nat) : List FileRec :=
  files.map (decFun oid)

/-- Django's `on_delete=SET_NULL` behaviour for the self-referential
`reference_file` foreign key (`models.py` line 30): a row whose
reference targets the deleted id keeps its other fields but loses the
link. -/
def setNullFun (fid : Nat) (g : FileRec) : FileRec :=
  if g.referenceFile == some fid then { g with referenceFile := none } else g

/-- Body of the duplicate check in `File.save` (`models.py` lines
109-142), the branch taken when `is_new and not self.is_duplicate`.
`checkRaises = true` models an exception raised by the repository query
`find_duplicate_by_content` (the hash itself is already computed at
that point, since `calculate_hash` traps all its own exceptions); the
`except` clause then falls back to a conservative non-duplicate. -/
def dedupDecide (sha : Bytes → String) (db : DB) (r : FileRec)
    (content : Option Bytes) (uuid : String) (checkRaises : Bool) : FileRec :=
  let h := if r.contentHash = "" then
      calculate_hash sha content r.originalFilename r.size uuid
    else r.contentHash
  let r1 := { r with contentHash := h }
  if checkRaises then
    { r1 with isDuplicate := false, actualSize := r1.size, referenceFile := none }
  else
    match find_duplicate_by_content db h with
    | some orig => { r1 with referenceFile := some orig.id, isDuplicate := true, actualSize := 0 }
    | none => { r1 with isDuplicate := false, actualSize := r1.size, referenceFile := none }

/-- `super().save()` on a not-yet-inserted row followed by the
`update_file_references` post-save signal (`models.py` lines 290-301):
the row is inserted, and if it was created as a duplicate with a
reference, the referenced original's `reference_count` is incremented
by one. -/
def insertRecord (db : DB) (r : FileRec) : DB :=
  let files := db.files ++ [r]
  let files :=
    if r.isDuplicate then
      match r.referenceFile with
      | some oid => incRef files oid
      | none => files
    else files
  { db with files := files }

/-- `File.save` (`models.py` lines 99-145) for a row that is being
inserted. `isNewPk` is the value of `not self.pk`: because the `id`
field has `default=uuid.uuid4`, an instance constructed without an
explicit id already carries a primary key, so the serializer-created
instances enter `save` with `isNewPk = false` and skip the duplicate
check; the check body runs only for an instance built with a falsy pk. -/
def modelSave (sha : Bytes → String) (db : DB) (r : FileRec)
    (content : Option Bytes) (uuid : String) (isNewPk checkRaises : Bool) :
    DB × FileRec :=
  let r1 := if isNewPk && !r.isDuplicate then
      dedupDecide sha db r content uuid checkRaises
    else r
  (insertRecord db r1, r1)

/-- The instance built by `FileSerializer.create` when `find_duplicate`
returned an existing original (`serializers.py` lines 48-56):
`is_duplicate = True`, `reference_file = existing`, `actual_size = 0`,
and the `file` field shares the original's storage path. -/
def newDupRec (sha : Bytes → String) (db : DB) (orig : FileRec)
    (content : Bytes) (filename filetype : String) (size : Int) : FileRec :=
  ⟨db.nextId, filename, filetype, size, db.clock, sha content,
    some orig.id, true, 0, 1, orig.filePath⟩

/-- The instance built by `FileSerializer.create` when no original
matched (`serializers.py` lines 64-67): model-field defaults
`is_duplicate = False`, `reference_file = None`, `reference_count = 1`,
plus `actual_size = size`, with a fresh storage path for the bytes. -/
def newOrigRec (sha : Bytes → String) (db : DB) (content : Bytes)
    (filename filetype : String) (size : Int) : FileRec :=
  ⟨db.nextId, filename, filetype, size, db.clock, sha content,
    none, false, size, 1, db.nextId⟩

/-- `FileSerializer.create` (`serializers.py` lines 25-69), the ingest
operation behind the upload endpoint: hash the stream, look up an
existing original with `File.find_duplicate`, then either create a
duplicate record sharing the original's storage path, or store the
bytes and create a non-duplicate record with `actual_size = size`. -/
def serializerCreate (sha : Bytes → String) (db : DB) (content : Bytes)
    (filename filetype : String) (size : Int) : DB :=
  let h := sha content
  match find_duplicate db h with
  | some orig =>
    (modelSave sha { db with nextId := db.nextId + 1, clock := db.clock + 1 }
      (newDupRec sha db orig content filename filetype size)
      (some content) "" false false).1
  | none =>
    (modelSave sha
      { db with blobs := db.blobs ++ [db.nextId], nextId := db.nextId + 1, clock := db.clock + 1 }
      (newOrigRec sha db content filename filetype size)
      (some content) "" false false).1

/-- `FileSerializer.create` including the hash step
`_calculate_file_hash` (`serializers.py` lines 78-102): an unreadable
stream makes `_calculate_file_hash` raise a `ValidationError`, which
`create` re-raises, so the ingest aborts with no record persisted. -/
def serializerCreateChecked (sha : Bytes → String) (db : DB)
    (content : Option Bytes) (filename filetype : String) (size : Int) :
    Except String DB :=
  match content with
  | none => .error "Unable to process file"
  | some bytes => .ok (serializerCreate sha db bytes filename filetype size)

/-- `File.delete` (`models.py` lines 147-180) as invoked by the DELETE
endpoint, followed by `super().delete()`: for a duplicate, decrement
the referenced original's count (floored at zero); for an original with
referencing duplicates, skip the blob-store deletion; for an original
without duplicates, delete the blob. The row itself is removed in every
case, and rows referencing the deleted id are set to null
(`on_delete=SET_NULL`). An unknown id is a not-found condition and
changes nothing. -/
def modelDelete (db : DB) (fid : Nat) : DB :=
  match db.files.find? (fun g => g.id == fid) with
  | none => db
  | some f =>
    let db1 :=
      if f.isDuplicate then
        match f.referenceFile with
        | some oid => { db with files := decRefFloor db.files oid }
        | none => db
      else
        if (db.files.filter (fun g => g.referenceFile == some f.id)).isEmpty then
          { db with blobs := db.blobs.filter (fun b => b ≠ f.filePath) }
        else db
    { db1 with
      files := (db1.files.filter (fun g => g.id ≠ fid)).map (setNullFun fid) }

/-- Records whose `reference_file` points at `oid`
(`objects.filter(reference_file=...)`). -/
def countRefs (files : List FileRec) (oid : Nat) : Nat :=
  files.countP (fun d => d.referenceFile == some oid)

/-- `reference_count` of the row with id `oid`, when such a row exists. -/
def refCountOf (db : DB) (oid : Nat) : Option Nat :=
  (db.files.find? (fun g => g.id == oid)).map (fun g => g.referenceCount)

/-- States reachable from the empty store through the two mutating API
operations: upload (`FileSerializer.create`) and delete
(`File.delete`). -/
inductive Reachable (sha : Bytes → String) : DB → Prop
  | init : Reachable sha initDB
  | ingest (db : DB) (content : Bytes) (fn ft : String) (sz : Int) :
      Reachable sha db → Reachable sha (serializerCreate sha db content fn ft sz)
  | del (db : DB) (fid : Nat) :
      Reachable sha db → Reachable sha (modelDelete db fid)

/-- `FileViewSet.stats` storage aggregation (`views.py` lines 179-189):
`total_size = Sum('size')`. -/
def statsTotalSize (files : List FileRec) : Int :=
  (files.map (fun f => f.size)).sum

/-- `actual_size = Sum('actual_size')`. -/
def statsActualSize (files : List FileRec) : Int :=
  (files.map (fun f => f.actualSize)).sum

/-- `storage_saved = total_size - actual_size` (`views.py` line 188). -/
def statsStorageSaved (files : List FileRec) : Int :=
  statsTotalSize files - statsActualSize files

/-- Python's `round(x, 2)`: round to the nearest multiple of 1/100. -/
def round2 (q : ℚ) : ℚ := (round (q * 100) : ℤ) / 100

/-- `storage_saved_percentage = round((storage_saved / total_size * 100), 2)
if total_size > 0 else 0` (`views.py` line 189). -/
def statsStorageSavedPercentage (files : List FileRec) : ℚ :=
  if 0 < statsTotalSize files then
    round2 ((statsStorageSaved files : ℚ) / (statsTotalSize files : ℚ) * 100)
  else 0

/-- A concrete stand-in for SHA-256 used to evaluate the model on
explicit inputs: injective on byte lists and never empty. -/
def shaC (b : Bytes) : String := "h" ++ toString b

/-- A degenerate hash function producing only the empty digest, used to
exercise the empty-hash code path. -/
def constShaEmpty : Bytes → String := fun _ => ""

/-- A sequence of uploads (content, filename, content type, declared
size), executed left to right through `FileSerializer.create`. -/
def ingestMany (sha : Bytes → String) :
    List (Bytes × String × String × Int) → DB → DB
  | [], db => db
  | (c, fn, ft, sz) :: rest, db =>
    ingestMany sha rest (serializerCreate sha db c fn ft sz)

/-- The store after uploading the same content twice: an original
(id 0) and a duplicate (id 1). -/
def dbTwo : DB :=
  serializerCreate shaC (serializerCreate shaC initDB [1] "a" "t" 5) [1] "b" "t" 5

/-- The original row of `dbTwo`, with `reference_count = 2`. -/
def origRec1 : FileRec := ⟨0, "a", "t", 5, 0, shaC [1], none, false, 5, 2, 0⟩

/-- The duplicate row of `dbTwo`, referencing the original. -/
def dupRec1 : FileRec := ⟨1, "b", "t", 5, 1, shaC [1], some 0, true, 0, 1, 0⟩

/-- Two non-duplicate rows sharing one content hash with different
upload times: the corrupted shape produced by the concurrent-upload
race that `recheck_duplicates` is meant to detect. -/
def twoOrigA : FileRec := ⟨0, "a", "t", 5, 0, shaC [9], none, false, 5, 1, 0⟩

def twoOrigB : FileRec := ⟨1, "b", "t", 5, 1, shaC [9], none, false, 5, 1, 1⟩

def twoOrigDB : DB := ⟨[twoOrigA, twoOrigB], [0, 1], 2, 2⟩

/-- A stats input: one original of logical size 2 and one duplicate of
logical size 1, so the saved fraction 1/3 has no finite decimal form. -/
def statsFiles3 : List FileRec :=
  [⟨0, "a", "t", 2, 0, shaC [1], none, false, 2, 1, 0⟩,
   ⟨1, "b", "t", 1, 1, shaC [1], some 0, true, 0, 1, 0⟩]

/-- A not-yet-hashed row entering `File.save` without a primary key. -/
def emptyHashRec : FileRec := ⟨0, "x", "t", 0, 0, "", none, false, 0, 1, 0⟩

/-- A row entering the model save path whose stream cannot be read. -/
def unreadableRec : FileRec :=
  ⟨0, "a.txt", "text/plain", 5, 0, "", none, false, 0, 1, 0⟩

/-! ### Helper lemmas about the row-update functions -/

lemma incFun_id (oid : Nat) (f : FileRec) : (incFun oid f).id = f.id := by
  unfold incFun; split <;> rfl

lemma incFun_ref (oid : Nat) (f : FileRec) :
    (incFun oid f).referenceFile = f.referenceFile := by
  unfold incFun; split <;> rfl

lemma incFun_dup (oid : Nat) (f : FileRec) :
    (incFun oid f).isDuplicate = f.isDuplicate := by
  unfold incFun; split <;> rfl

lemma incFun_hash (oid : Nat) (f : FileRec) :
    (incFun oid f).contentHash = f.contentHash := by
  unfold incFun; split <;> rfl

lemma incFun_size (oid : Nat) (f : FileRec) : (incFun oid f).size = f.size := by
  unfold incFun; split <;> rfl

lemma incFun_actualSize (oid : Nat) (f : FileRec) :
    (incFun oid f).actualSize = f.actualSize := by
  unfold incFun; split <;> rfl

lemma incFun_rc (oid : Nat) (f : FileRec) :
    (incFun oid f).referenceCount =
      if f.id = oid then f.referenceCount + 1 else f.referenceCount := by
  unfold incFun; split <;> rfl

lemma decFun_id (oid : Nat) (f : FileRec) : (decFun oid f).id = f.id := by
  unfold decFun; split <;> [skip; rfl]; split <;> rfl

lemma decFun_ref (oid : Nat) (f : FileRec) :
    (decFun oid f).referenceFile = f.referenceFile := by
  unfold decFun; split <;> [skip; rfl]; split <;> rfl

lemma decFun_dup (oid : Nat) (f : FileRec) :
    (decFun oid f).isDuplicate = f.isDuplicate := by
  unfold decFun; split <;> [skip; rfl]; split <;> rfl

lemma decFun_hash (oid : Nat) (f : FileRec) :
    (decFun oid f).contentHash = f.contentHash := by
  unfold decFun; split <;> [skip; rfl]; split <;> rfl

lemma decFun_size (oid : Nat) (f : FileRec) : (decFun oid f).size = f.size := by
  unfold decFun; split <;> [skip; rfl]; split <;> rfl

lemma decFun_actualSize (oid : Nat) (f : FileRec) :
    (decFun oid f).actualSize = f.actualSize := by
  unfold decFun; split <;> [skip; rfl]; split <;> rfl

lemma decFun_rc (oid : Nat) (f : FileRec) :
    (decFun oid f).referenceCount =
      if f.id = oid then f.referenceCount - 1 else f.referenceCount := by
  unfold decFun
  split
  · split
    · rfl
    · next h => simp at h; simp [h]
  · rfl

lemma setNullFun_id (fid : Nat) (g : FileRec) : (setNullFun fid g).id = g.id := by
  unfold setNullFun; split <;> rfl

lemma setNullFun_dup (fid : Nat) (g : FileRec) :
    (setNullFun fid g).isDuplicate = g.isDuplicate := by
  unfold setNullFun; split <;> rfl

lemma setNullFun_hash (fid : Nat) (g : FileRec) :
    (setNullFun fid g).contentHash = g.contentHash := by
  unfold setNullFun; split <;> rfl

lemma setNullFun_size (fid : Nat) (g : FileRec) :
    (setNullFun fid g).size = g.size := by
  unfold setNullFun; split <;> rfl

lemma setNullFun_actualSize (fid : Nat) (g : FileRec) :
    (setNullFun fid g).actualSize = g.actualSize := by
  unfold setNullFun; split <;> rfl

lemma setNullFun_rc (fid : Nat) (g : FileRec) :
    (setNullFun fid g).referenceCount = g.referenceCount := by
  unfold setNullFun; split <;> rfl

lemma setNullFun_ref (fid : Nat) (g : FileRec) :
    (setNullFun fid g).referenceFile =
      if g.referenceFile = some fid then none else g.referenceFile := by
  unfold setNullFun
  by_cases h : g.referenceFile = some fid
  · simp [h]
  · simp [h]

lemma matchesHash_iff (h : String) (f : FileRec) :
    matchesHash h f = true ↔ f.contentHash = h ∧ f.isDuplicate = false := by
  simp [matchesHash, Bool.and_eq_true, Bool.not_eq_true']

/-! ### Helper lemmas about the first-match selectors -/

lemma pickNewest_eq_none {l : List FileRec} (h : pickNewest l = none) : l = [] := by
  cases l with
  | nil => rfl
  | cons a t =>
    cases ht : pickNewest t with
    | none => simp [pickNewest, ht] at h
    | some b =>
      simp only [pickNewest, ht] at h
      split at h <;> simp at h

lemma pickNewest_mem : ∀ {l : List FileRec} {r : FileRec}, pickNewest l = some r → r ∈ l := by
  intro l
  induction l with
  | nil => intro r h; simp [pickNewest] at h
  | cons a t ih =>
    intro r h
    cases ht : pickNewest t with
    | none =>
      simp only [pickNewest, ht, Option.some.injEq] at h
      subst h; exact List.mem_cons_self _ _
    | some b =>
      simp only [pickNewest, ht] at h
      split at h <;> simp only [Option.some.injEq] at h <;> subst h
      · exact List.mem_cons_self _ _
      · exact List.mem_cons_of_mem _ (ih ht)

lemma pickNewest_isMax : ∀ {l : List FileRec} {r : FileRec}, pickNewest l = some r →
    ∀ g ∈ l, g.uploadedAt ≤ r.uploadedAt := by
  intro l
  induction l with
  | nil => intro r h; simp [pickNewest] at h
  | cons a t ih =>
    intro r h g hg
    cases ht : pickNewest t with
    | none =>
      simp only [pickNewest, ht, Option.some.injEq] at h
      subst h
      rcases List.mem_cons.mp hg with hga | hgt
      · subst hga; exact le_refl _
      · rw [pickNewest_eq_none ht] at hgt; simp at hgt
    | some b =>
      simp only [pickNewest, ht] at h
      split at h <;> simp only [Option.some.injEq] at h <;> subst h
      · next hba =>
        rcases List.mem_cons.mp hg with hga | hgt
        · subst hga; exact le_refl _
        · exact le_trans (ih ht g hgt) hba
      · next hba =>
        rcases List.mem_cons.mp hg with hga | hgt
        · subst hga; exact le_of_not_le hba
        · exact ih ht g hgt

lemma pickOldest_eq_none {l : List FileRec} (h : pickOldest l = none) : l = [] := by
  cases l with
  | nil => rfl
  | cons a t =>
    cases ht : pickOldest t with
    | none => simp [pickOldest, ht] at h
    | some b =>
      simp only [pickOldest, ht] at h
      split at h <;> simp at h

lemma pickOldest_mem : ∀ {l : List FileRec} {r : FileRec}, pickOldest l = some r → r ∈ l := by
  intro l
  induction l with
  | nil => intro r h; simp [pickOldest] at h
  | cons a t ih =>
    intro r h
    cases ht : pickOldest t with
    | none =>
      simp only [pickOldest, ht, Option.some.injEq] at h
      subst h; exact List.mem_cons_self _ _
    | some b =>
      simp only [pickOldest, ht] at h
      split at h <;> simp only [Option.some.injEq] at h <;> subst h
      · exact List.mem_cons_self _ _
      · exact List.mem_cons_of_mem _ (ih ht)

lemma pickOldest_isMin : ∀ {l : List FileRec} {r : FileRec}, pickOldest l = some r →
    ∀ g ∈ l, r.uploadedAt ≤ g.uploadedAt := by
  intro l
  induction l with
  | nil => intro r h; simp [pickOldest] at h
  | cons a t ih =>
    intro r h g hg
    cases ht : pickOldest t with
    | none =>
      simp only [pickOldest, ht, Option.some.injEq] at h
      subst h
      rcases List.mem_cons.mp hg with hga | hgt
      · subst hga; exact le_refl _
      · rw [pickOldest_eq_none ht] at hgt; simp at hgt
    | some b =>
      simp only [pickOldest, ht] at h
      split at h <;> simp only [Option.some.injEq] at h <;> subst h
      · next hab =>
        rcases List.mem_cons.mp hg with hga | hgt
        · subst hga; exact le_refl _
        · exact le_trans hab (ih ht g hgt)
      · next hab =>
        rcases List.mem_cons.mp hg with hga | hgt
        · subst hga; exact le_of_not_le hab
        · exact ih ht g hgt

/-! ### Helper lemmas about reference counting over the table -/

lemma countRefs_append (l1 l2 : List FileRec) (oid : Nat) :
    countRefs (l1 ++ l2) oid = countRefs l1 oid + countRefs l2 oid := by
  simp [countRefs]

lemma countRefs_singleton (r : FileRec) (oid : Nat) :
    countRefs [r] oid = if r.referenceFile = some oid then 1 else 0 := by
  simp [countRefs, List.countP_singleton]

lemma countRefs_map (φ : FileRec → FileRec) (l : List FileRec) (oid : Nat)
    (h : ∀ f, (φ f).referenceFile = f.referenceFile) :
    countRefs (l.map φ) oid = countRefs l oid := by
  simp only [countRefs, List.countP_map]
  apply List.countP_congr
  intro x _
  simp [Function.comp, h]

lemma countRefs_incRef (l : List FileRec) (oid x : Nat) :
    countRefs (incRef l oid) x = countRefs l x :=
  countRefs_map _ _ _ (incFun_ref oid)

lemma countRefs_decRef (l : List FileRec) (oid x : Nat) :
    countRefs (decRefFloor l oid) x = countRefs l x :=
  countRefs_map _ _ _ (decFun_ref oid)

lemma countRefs_eq_zero (l : List FileRec) (oid : Nat)
    (h : ∀ g ∈ l, g.referenceFile ≠ some oid) : countRefs l oid = 0 := by
  simp only [countRefs, List.countP_eq_zero]
  intro g hg
  simp [h g hg]

lemma countRefs_pos (l : List FileRec) (oid : Nat) (f : FileRec) (hf : f ∈ l)
    (h : f.referenceFile = some oid) : 0 < countRefs l oid := by
  simp only [countRefs, List.countP_pos_iff]
  exact ⟨f, hf, by simp [h]⟩

/-- A step equation for `find?` by id. -/
lemma find?_id_cons (x : FileRec) (xs : List FileRec) (oid : Nat) :
    List.find? (fun g => g.id == oid) (x :: xs) =
      if x.id = oid then some x else List.find? (fun g => g.id == oid) xs := by
  rw [List.find?_cons]
  by_cases hx : x.id = oid
  · have hb : (x.id == oid) = true := by simp [hx]
    rw [hb, if_pos hx]
  · have hb : (x.id == oid) = false := by simp [hx]
    rw [hb, if_neg hx]

/-- Removing the one row with id `f.id` from a table with no repeated
ids removes exactly `f`'s contribution to a reference count. -/
lemma countRefs_filter_erase (l : List FileRec) (f : FileRec) (oid : Nat)
    (hf : f ∈ l) (hnd : (l.map (fun g => g.id)).Nodup) :
    countRefs (l.filter (fun g => g.id ≠ f.id)) oid +
      (if f.referenceFile = some oid then 1 else 0) = countRefs l oid := by
  induction l with
  | nil => simp at hf
  | cons a t ih =>
    simp only [List.map_cons, List.nodup_cons] at hnd
    rcases List.mem_cons.mp hf with hfa | hft
    · subst hfa
      have hkeep : t.filter (fun g => g.id ≠ f.id) = t := by
        apply List.filter_eq_self.mpr
        intro g hg
        have : g.id ≠ f.id := by
          intro hcontra
          exact hnd.1 (hcontra ▸ List.mem_map_of_mem (fun g => g.id) hg)
        simp [this]
      rw [List.filter_cons, if_neg (by simp), hkeep]
      simp only [countRefs, List.countP_cons]
      by_cases hr : f.referenceFile = some oid <;> simp [hr]
    · have hne : a.id ≠ f.id := by
        intro hcontra
        exact hnd.1 (hcontra ▸ List.mem_map_of_mem (fun g => g.id) hft)
      rw [List.filter_cons, if_pos (by simp [hne])]
      simp only [countRefs, List.countP_cons] at *
      have := ih hft hnd.2
      omega

/-! ### Helper lemmas about tables with unique ids -/

lemma eq_of_mem_id {l : List FileRec} {a b : FileRec}
    (hnd : (l.map (fun g => g.id)).Nodup) (ha : a ∈ l) (hb : b ∈ l)
    (hid : a.id = b.id) : a = b := by
  induction l with
  | nil => simp at ha
  | cons x t ih =>
    simp only [List.map_cons, List.nodup_cons] at hnd
    rcases List.mem_cons.mp ha with hax | hat <;>
      rcases List.mem_cons.mp hb with hbx | hbt
    · rw [hax, hbx]
    · subst hax
      exact absurd (hid ▸ List.mem_map_of_mem (fun g => g.id) hbt) hnd.1
    · subst hbx
      exact absurd (hid ▸ List.mem_map_of_mem (fun g => g.id) hat) hnd.1
    · exact ih hnd.2 hat hbt

lemma find?_id_of_mem {l : List FileRec} {f : FileRec}
    (hnd : (l.map (fun g => g.id)).Nodup) (hf : f ∈ l) :
    l.find? (fun g => g.id == f.id) = some f := by
  induction l with
  | nil => simp at hf
  | cons a t ih =>
    simp only [List.map_cons, List.nodup_cons] at hnd
    rcases List.mem_cons.mp hf with hfa | hft
    · subst hfa
      rw [find?_id_cons, if_pos rfl]
    · have hne : a.id ≠ f.id := by
        intro hcontra
        exact hnd.1 (hcontra ▸ List.mem_map_of_mem (fun g => g.id) hft)
      rw [find?_id_cons, if_neg hne]
      exact ih hnd.2 hft

/-- `find?` by id is unaffected by a map that preserves ids. -/
lemma find?_id_map (φ : FileRec → FileRec) (l : List FileRec) (oid : Nat)
    (hid : ∀ f, (φ f).id = f.id) :
    (l.map φ).find? (fun g => g.id == oid) =
      (l.find? (fun g => g.id == oid)).map φ := by
  have hp : ((fun g => g.id == oid) ∘ φ) = (fun (g : FileRec) => g.id == oid) := by
    funext f
    simp [Function.comp, hid]
  rw [List.find?_map, hp]

/-- `find?` by id is unaffected by filtering away a different id. -/
lemma find?_id_filter_ne (l : List FileRec) (fid oid : Nat) (hne : oid ≠ fid) :
    (l.filter (fun g => g.id ≠ fid)).find? (fun g => g.id == oid) =
      l.find? (fun g => g.id == oid) := by
  induction l with
  | nil => rfl
  | cons a t ih =>
    rw [List.filter_cons]
    by_cases ha : a.id = fid
    · rw [if_neg (by simp [ha]), find?_id_cons, if_neg (by rw [ha]; exact Ne.symm hne)]
      exact ih
    · rw [if_pos (by simp [ha]), find?_id_cons, find?_id_cons]
      by_cases hao : a.id = oid
      · rw [if_pos hao, if_pos hao]
      · rw [if_neg hao, if_neg hao]
        exact ih

/-! ### The data-model invariant -/

/-- The invariant of the `File` table maintained by the API operations:
fresh bounded ids, unique ids, originals carry no reference, references
point from duplicates to existing originals, at most one non-duplicate
row per content hash, `reference_count = 1 + number of referencing
rows` on originals, and the `actual_size` discipline. -/
structure Inv (db : DB) : Prop where
  idsBelow : ∀ f ∈ db.files, f.id < db.nextId
  idsNodup : (db.files.map (fun g => g.id)).Nodup
  origNoRef : ∀ f ∈ db.files, f.isDuplicate = false → f.referenceFile = none
  refsValid : ∀ f ∈ db.files, ∀ oid, f.referenceFile = some oid →
      f.isDuplicate = true ∧ ∃ o, o ∈ db.files ∧ o.id = oid ∧ o.isDuplicate = false
  hashUnique : ∀ f ∈ db.files, ∀ g ∈ db.files, f.isDuplicate = false →
      g.isDuplicate = false → f.contentHash = g.contentHash → f = g
  refCount : ∀ o ∈ db.files, o.isDuplicate = false →
      o.referenceCount = 1 + countRefs db.files o.id
  sizes : ∀ f ∈ db.files, (f.isDuplicate = true → f.actualSize = 0) ∧
      (f.isDuplicate = false → f.actualSize = f.size)

lemma inv_init : Inv initDB := by
  constructor <;> simp [initDB, countRefs]

/-! ### Result shapes of the operations -/

lemma serializerCreate_files_dup {sha : Bytes → String} {db : DB} {c : Bytes}
    {fn ft : String} {sz : Int} {orig : FileRec}
    (hfd : find_duplicate db (sha c) = some orig) :
    (serializerCreate sha db c fn ft sz).files =
      incRef (db.files ++ [newDupRec sha db orig c fn ft sz]) orig.id := by
  simp [serializerCreate, hfd, modelSave, insertRecord, newDupRec]

lemma serializerCreate_files_orig {sha : Bytes → String} {db : DB} {c : Bytes}
    {fn ft : String} {sz : Int}
    (hfd : find_duplicate db (sha c) = none) :
    (serializerCreate sha db c fn ft sz).files =
      db.files ++ [newOrigRec sha db c fn ft sz] := by
  simp [serializerCreate, hfd, modelSave, insertRecord, newOrigRec]

lemma serializerCreate_nextId (sha : Bytes → String) (db : DB) (c : Bytes)
    (fn ft : String) (sz : Int) :
    (serializerCreate sha db c fn ft sz).nextId = db.nextId + 1 := by
  unfold serializerCreate
  cases hfd : find_duplicate db (sha c) <;>
    simp [hfd, modelSave, insertRecord, newDupRec, newOrigRec]

lemma modelDelete_eq_of_none {db : DB} {fid : Nat}
    (hfind : db.files.find? (fun g => g.id == fid) = none) :
    modelDelete db fid = db := by
  simp [modelDelete, hfind]

lemma modelDelete_files_dup_some {db : DB} {fid : Nat} {f : FileRec} {oid : Nat}
    (hfind : db.files.find? (fun g => g.id == fid) = some f)
    (hdup : f.isDuplicate = true) (href : f.referenceFile = some oid) :
    (modelDelete db fid).files =
      ((decRefFloor db.files oid).filter (fun g => g.id ≠ fid)).map (setNullFun fid) := by
  simp [modelDelete, hfind, hdup, href]

lemma modelDelete_files_dup_none {db : DB} {fid : Nat} {f : FileRec}
    (hfind : db.files.find? (fun g => g.id == fid) = some f)
    (hdup : f.isDuplicate = true) (href : f.referenceFile = none) :
    (modelDelete db fid).files =
      (db.files.filter (fun g => g.id ≠ fid)).map (setNullFun fid) := by
  simp [modelDelete, hfind, hdup, href]

lemma modelDelete_files_orig {db : DB} {fid : Nat} {f : FileRec}
    (hfind : db.files.find? (fun g => g.id == fid) = some f)
    (hdup : f.isDuplicate = false) :
    (modelDelete db fid).files =
      (db.files.filter (fun g => g.id ≠ fid)).map (setNullFun fid) := by
  by_cases hemp : (db.files.filter (fun g => g.referenceFile == some f.id)).isEmpty = true
  · simp [modelDelete, hfind, hdup, hemp]
  · simp [modelDelete, hfind, hdup, hemp]

lemma find_duplicate_some {db : DB} {h : String} {orig : FileRec}
    (hfd : find_duplicate db h = some orig) :
    orig ∈ db.files ∧ orig.contentHash = h ∧ orig.isDuplicate = false := by
  have hfd' : pickNewest (db.files.filter (matchesHash h)) = some orig := hfd
  have hm := List.mem_filter.mp (pickNewest_mem hfd')
  exact ⟨hm.1, (matchesHash_iff h orig).mp hm.2⟩

lemma find_duplicate_none {db : DB} {h : String}
    (hfd : find_duplicate db h = none) :
    ∀ g ∈ db.files, ¬(g.contentHash = h ∧ g.isDuplicate = false) := by
  have hfd' : pickNewest (db.files.filter (matchesHash h)) = none := hfd
  have hempty := pickNewest_eq_none hfd'
  intro g hg hcon
  have : g ∈ db.files.filter (matchesHash h) :=
    List.mem_filter.mpr ⟨hg, (matchesHash_iff h g).mpr hcon⟩
  rw [hempty] at this
  simp at this

lemma find_duplicate_by_content_some {db : DB} {h : String} {o : FileRec}
    (hfd : find_duplicate_by_content db h = some o) :
    o ∈ db.files ∧ o.contentHash = h ∧ o.isDuplicate = false ∧ h ≠ "" := by
  unfold find_duplicate_by_content at hfd
  by_cases hh : h = ""
  · rw [if_pos hh] at hfd; cases hfd
  · rw [if_neg hh] at hfd
    have hm := List.mem_filter.mp (pickOldest_mem hfd)
    have hmm := (matchesHash_iff h o).mp hm.2
    exact ⟨hm.1, hmm.1, hmm.2, hh⟩

/-- Appending a row with the fresh id keeps the id column duplicate-free. -/
lemma nodup_ids_snoc {db : DB} {x : FileRec}
    (hnd : (db.files.map (fun g => g.id)).Nodup)
    (hbelow : ∀ f ∈ db.files, f.id < db.nextId) (hx : x.id = db.nextId) :
    ((db.files ++ [x]).map (fun g => g.id)).Nodup := by
  rw [List.map_append]
  apply List.nodup_append.mpr
  refine ⟨hnd, by simp, ?_⟩
  intro a ha hb
  simp only [List.map_cons, List.map_nil, List.mem_singleton] at hb
  obtain ⟨g, hg, hgid⟩ := List.mem_map.mp ha
  have := hbelow g hg
  rw [hgid, hb, hx] at this
  exact absurd this (lt_irrefl _)

/-- No existing row references the fresh id. -/
lemma countRefs_fresh_zero {db : DB} (hinv : Inv db) :
    countRefs db.files db.nextId = 0 := by
  apply countRefs_eq_zero
  intro g hg hcon
  obtain ⟨_, o2, ho2, ho2id, _⟩ := hinv.refsValid g hg db.nextId hcon
  have := hinv.idsBelow o2 ho2
  rw [ho2id] at this
  exact absurd this (lt_irrefl _)

/-- Ingest of content that matched no stored original preserves the
invariant. -/
lemma inv_ingest_orig (sha : Bytes → String) (db : DB) (c : Bytes)
    (fn ft : String) (sz : Int) (hinv : Inv db)
    (hfd : find_duplicate db (sha c) = none) :
    Inv (serializerCreate sha db c fn ft sz) := by
  have hfiles := @serializerCreate_files_orig sha db c fn ft sz hfd
  have hnext := serializerCreate_nextId sha db c fn ft sz
  have hno := find_duplicate_none hfd
  refine ⟨?_, ?_, ?_, ?_, ?_, ?_, ?_⟩
  · -- idsBelow
    intro x hx
    rw [hfiles] at hx
    rw [hnext]
    rcases List.mem_append.mp hx with hxo | hxr
    · exact Nat.lt_succ_of_lt (hinv.idsBelow x hxo)
    · rw [List.mem_singleton.mp hxr]
      exact Nat.lt_succ_self _
  · -- idsNodup
    rw [hfiles]
    exact nodup_ids_snoc hinv.idsNodup hinv.idsBelow rfl
  · -- origNoRef
    intro x hx hxdup
    rw [hfiles] at hx
    rcases List.mem_append.mp hx with hxo | hxr
    · exact hinv.origNoRef x hxo hxdup
    · rw [List.mem_singleton.mp hxr]; rfl
  · -- refsValid
    intro x hx oid href
    rw [hfiles] at hx
    rcases List.mem_append.mp hx with hxo | hxr
    · obtain ⟨hdup, o, ho, hoid, hodup⟩ := hinv.refsValid x hxo oid href
      refine ⟨hdup, o, ?_, hoid, hodup⟩
      rw [hfiles]
      exact List.mem_append_left _ ho
    · rw [List.mem_singleton.mp hxr] at href
      cases href
  · -- hashUnique
    intro x hx y hy hxdup hydup hhash
    rw [hfiles] at hx hy
    rcases List.mem_append.mp hx with hxo | hxr <;>
      rcases List.mem_append.mp hy with hyo | hyr
    · exact hinv.hashUnique x hxo y hyo hxdup hydup hhash
    · rw [List.mem_singleton.mp hyr] at hhash
      exact absurd ⟨hhash, hxdup⟩ (hno x hxo)
    · rw [List.mem_singleton.mp hxr] at hhash
      exact absurd ⟨hhash.symm, hydup⟩ (hno y hyo)
    · rw [List.mem_singleton.mp hxr, List.mem_singleton.mp hyr]
  · -- refCount
    intro o ho hodup
    rw [hfiles] at ho ⊢
    rw [countRefs_append, countRefs_singleton]
    rcases List.mem_append.mp ho with hoo | hor
    · rw [hinv.refCount o hoo hodup, if_neg (by simp [newOrigRec])]
      omega
    · rw [List.mem_singleton.mp hor]
      have hz := countRefs_fresh_zero hinv
      simp [newOrigRec, hz]
  · -- sizes
    intro x hx
    rw [hfiles] at hx
    rcases List.mem_append.mp hx with hxo | hxr
    · exact hinv.sizes x hxo
    · rw [List.mem_singleton.mp hxr]
      refine ⟨fun h => ?_, fun h => rfl⟩
      simp [newOrigRec] at h

/-- Ingest of content that matched a stored original preserves the
invariant. -/
lemma inv_ingest_dup (sha : Bytes → String) (db : DB) (c : Bytes)
    (fn ft : String) (sz : Int) (orig : FileRec) (hinv : Inv db)
    (hfd : find_duplicate db (sha c) = some orig) :
    Inv (serializerCreate sha db c fn ft sz) := by
  have hfiles := @serializerCreate_files_dup sha db c fn ft sz orig hfd
  have hnext := serializerCreate_nextId sha db c fn ft sz
  obtain ⟨horigmem, horighash, horigdup⟩ := find_duplicate_some hfd
  set r := newDupRec sha db orig c fn ft sz with hr
  have hrid : r.id = db.nextId := rfl
  have hrref : r.referenceFile = some orig.id := rfl
  have hrdup : r.isDuplicate = true := rfl
  refine ⟨?_, ?_, ?_, ?_, ?_, ?_, ?_⟩
  · -- idsBelow
    intro x hx
    rw [hfiles] at hx
    rw [hnext]
    obtain ⟨g, hg, hgx⟩ := List.mem_map.mp hx
    rw [← hgx, incFun_id]
    rcases List.mem_append.mp hg with hgo | hgr
    · exact Nat.lt_succ_of_lt (hinv.idsBelow g hgo)
    · rw [List.mem_singleton.mp hgr, hrid]
      exact Nat.lt_succ_self _
  · -- idsNodup
    rw [hfiles]
    have hmapid : (incRef (db.files ++ [r]) orig.id).map (fun g => g.id) =
        ((db.files ++ [r]).map (fun g => g.id)) := by
      unfold incRef
      rw [List.map_map]
      exact List.map_congr_left (fun a _ => incFun_id _ _)
    rw [hmapid]
    exact nodup_ids_snoc hinv.idsNodup hinv.idsBelow hrid
  · -- origNoRef
    intro x hx hxdup
    rw [hfiles] at hx
    obtain ⟨g, hg, hgx⟩ := List.mem_map.mp hx
    rw [← hgx, incFun_ref]
    rw [← hgx, incFun_dup] at hxdup
    rcases List.mem_append.mp hg with hgo | hgr
    · exact hinv.origNoRef g hgo hxdup
    · rw [List.mem_singleton.mp hgr] at hxdup
      rw [hrdup] at hxdup
      cases hxdup
  · -- refsValid
    intro x hx oid href
    rw [hfiles] at hx
    obtain ⟨g, hg, hgx⟩ := List.mem_map.mp hx
    rw [← hgx, incFun_ref] at href
    rw [← hgx, incFun_dup]
    rcases List.mem_append.mp hg with hgo | hgr
    · obtain ⟨hdup, o, ho, hoid, hodup⟩ := hinv.refsValid g hgo oid href
      refine ⟨hdup, incFun orig.id o, ?_, ?_, ?_⟩
      · rw [hfiles]
        exact List.mem_map_of_mem _ (List.mem_append_left _ ho)
      · rw [incFun_id]; exact hoid
      · rw [incFun_dup]; exact hodup
    · rw [List.mem_singleton.mp hgr] at href ⊢
      rw [hrref] at href
      have hoid : oid = orig.id := (Option.some.inj href).symm
      refine ⟨hrdup, incFun orig.id orig, ?_, ?_, ?_⟩
      · rw [hfiles]
        exact List.mem_map_of_mem _ (List.mem_append_left _ horigmem)
      · rw [incFun_id, hoid]
      · rw [incFun_dup]; exact horigdup
  · -- hashUnique
    intro x hx y hy hxdup hydup hhash
    rw [hfiles] at hx hy
    obtain ⟨g, hg, hgx⟩ := List.mem_map.mp hx
    obtain ⟨g2, hg2, hg2y⟩ := List.mem_map.mp hy
    rw [← hgx, incFun_dup] at hxdup
    rw [← hg2y, incFun_dup] at hydup
    rw [← hgx, ← hg2y, incFun_hash, incFun_hash] at hhash
    have hgo : g ∈ db.files := by
      rcases List.mem_append.mp hg with h1 | h1
      · exact h1
      · rw [List.mem_singleton.mp h1, hrdup] at hxdup; cases hxdup
    have hg2o : g2 ∈ db.files := by
      rcases List.mem_append.mp hg2 with h1 | h1
      · exact h1
      · rw [List.mem_singleton.mp h1, hrdup] at hydup; cases hydup
    have := hinv.hashUnique g hgo g2 hg2o hxdup hydup hhash
    rw [← hgx, ← hg2y, this]
  · -- refCount
    intro o ho hodup
    rw [hfiles] at ho ⊢
    obtain ⟨g, hg, hgo⟩ := List.mem_map.mp ho
    rw [← hgo, incFun_dup] at hodup
    have hgmem : g ∈ db.files := by
      rcases List.mem_append.mp hg with h1 | h1
      · exact h1
      · rw [List.mem_singleton.mp h1, hrdup] at hodup; cases hodup
    rw [← hgo, incFun_id, incFun_rc]
    rw [countRefs_incRef, countRefs_append, countRefs_singleton, hrref]
    rw [hinv.refCount g hgmem hodup]
    by_cases hgid : g.id = orig.id
    · have hgeq : g = orig := eq_of_mem_id hinv.idsNodup hgmem horigmem hgid
      rw [if_pos hgid, if_pos (by rw [hgid])]
      omega
    · rw [if_neg hgid, if_neg (by simp; intro hcontra; exact hgid hcontra.symm)]
      omega
  · -- sizes
    intro x hx
    rw [hfiles] at hx
    obtain ⟨g, hg, hgx⟩ := List.mem_map.mp hx
    rw [← hgx]
    constructor
    · intro hdup
      rw [incFun_actualSize]
      rw [incFun_dup] at hdup
      rcases List.mem_append.mp hg with h1 | h1
      · exact (hinv.sizes g h1).1 hdup
      · rw [List.mem_singleton.mp h1]; rfl
    · intro hdup
      rw [incFun_actualSize, incFun_size]
      rw [incFun_dup] at hdup
      rcases List.mem_append.mp hg with h1 | h1
      · exact (hinv.sizes g h1).2 hdup
      · rw [List.mem_singleton.mp h1, hrdup] at hdup; cases hdup

lemma modelDelete_nextId (db : DB) (fid : Nat) :
    (modelDelete db fid).nextId = db.nextId := by
  unfold modelDelete
  cases hfind : db.files.find? (fun g => g.id == fid) with
  | none => rfl
  | some f =>
    cases hdup : f.isDuplicate with
    | true => cases href : f.referenceFile <;> simp [hdup, href]
    | false =>
      by_cases hemp :
          (db.files.filter (fun g => g.referenceFile == some f.id)).isEmpty = true <;>
        simp [hdup, hemp]

/-- No row ever references a duplicate row's id. -/
lemma no_refs_to_dup {db : DB} {f : FileRec} (hinv : Inv db)
    (hf : f ∈ db.files) (hdup : f.isDuplicate = true) :
    ∀ g ∈ db.files, g.referenceFile ≠ some f.id := by
  intro g hg hcon
  obtain ⟨_, o, ho, hoid, hodup⟩ := hinv.refsValid g hg f.id hcon
  have : o = f := eq_of_mem_id hinv.idsNodup ho hf hoid
  rw [this, hdup] at hodup
  cases hodup

/-- `SET_NULL` is the identity when no row references the deleted id. -/
lemma setNull_map_id {l : List FileRec} {fid : Nat}
    (h : ∀ g ∈ l, g.referenceFile ≠ some fid) :
    l.map (setNullFun fid) = l := by
  have hpt : ∀ g ∈ l, setNullFun fid g = g := by
    intro g hg
    unfold setNullFun
    rw [if_neg (by simp [h g hg])]
  rw [List.map_congr_left hpt]
  simp

/-- `SET_NULL` towards `fid` does not change reference counts towards a
different id. -/
lemma countRefs_map_setNull (l : List FileRec) (fid x : Nat) (hx : x ≠ fid) :
    countRefs (l.map (setNullFun fid)) x = countRefs l x := by
  simp only [countRefs, List.countP_map]
  apply List.countP_congr
  intro g _
  simp only [Function.comp, setNullFun_ref]
  by_cases hgr : g.referenceFile = some fid
  · simp [hgr, Ne.symm hx]
  · simp [hgr]

/-- Deleting a duplicate that references `oid` preserves the invariant. -/
lemma inv_delete_dup_some (db : DB) (fid : Nat) (f : FileRec) (oid : Nat)
    (hinv : Inv db)
    (hfind : db.files.find? (fun g => g.id == fid) = some f)
    (hdup : f.isDuplicate = true) (href : f.referenceFile = some oid) :
    Inv (modelDelete db fid) := by
  have hfmem := List.mem_of_find?_eq_some hfind
  have hfid : f.id = fid := by simpa using List.find?_some hfind
  have hnext := modelDelete_nextId db fid
  have hnorefs := no_refs_to_dup hinv hfmem hdup
  have hmapdec : (decRefFloor db.files oid).map (fun g => g.id) =
      db.files.map (fun g => g.id) := by
    unfold decRefFloor
    rw [List.map_map]
    exact List.map_congr_left (fun a _ => decFun_id _ _)
  have hnorefs3 : ∀ g ∈ (decRefFloor db.files oid).filter (fun g => g.id ≠ fid),
      g.referenceFile ≠ some fid := by
    intro g hg
    obtain ⟨g0, hg0, hg0e⟩ := List.mem_map.mp (List.mem_filter.mp hg).1
    rw [← hg0e, decFun_ref, ← hfid]
    exact hnorefs g0 hg0
  have hfiles : (modelDelete db fid).files =
      (decRefFloor db.files oid).filter (fun g => g.id ≠ fid) := by
    rw [modelDelete_files_dup_some hfind hdup href, setNull_map_id hnorefs3]
  obtain ⟨_, otgt, hotgt, hotgtid, hotgtdup⟩ := hinv.refsValid f hfmem oid href
  have hoidne : oid ≠ fid := by
    intro hcontra
    have : otgt = f :=
      eq_of_mem_id hinv.idsNodup hotgt hfmem (by rw [hotgtid, hcontra, hfid])
    rw [this, hdup] at hotgtdup
    cases hotgtdup
  have hmem_of : ∀ x ∈ (modelDelete db fid).files,
      ∃ g0 ∈ db.files, decFun oid g0 = x ∧ x.id ≠ fid := by
    intro x hx
    rw [hfiles] at hx
    have hx1 := List.mem_filter.mp hx
    obtain ⟨g0, hg0, hg0e⟩ := List.mem_map.mp hx1.1
    exact ⟨g0, hg0, hg0e, by simpa using hx1.2⟩
  have hmem_to : ∀ g0 ∈ db.files, g0.id ≠ fid →
      decFun oid g0 ∈ (modelDelete db fid).files := by
    intro g0 hg0 hg0ne
    rw [hfiles]
    refine List.mem_filter.mpr ⟨List.mem_map_of_mem _ hg0, ?_⟩
    simp [decFun_id, hg0ne]
  refine ⟨?_, ?_, ?_, ?_, ?_, ?_, ?_⟩
  · -- idsBelow
    intro x hx
    obtain ⟨g0, hg0, hg0e, _⟩ := hmem_of x hx
    rw [hnext, ← hg0e, decFun_id]
    exact hinv.idsBelow g0 hg0
  · -- idsNodup
    rw [hfiles]
    have hsub : List.Sublist
        (((decRefFloor db.files oid).filter (fun g => g.id ≠ fid)).map (fun g => g.id))
        ((decRefFloor db.files oid).map (fun g => g.id)) :=
      (List.filter_sublist _).map _
    rw [hmapdec] at hsub
    exact hinv.idsNodup.sublist hsub
  · -- origNoRef
    intro x hx hxdup
    obtain ⟨g0, hg0, hg0e, _⟩ := hmem_of x hx
    rw [← hg0e, decFun_ref]
    rw [← hg0e, decFun_dup] at hxdup
    exact hinv.origNoRef g0 hg0 hxdup
  · -- refsValid
    intro x hx oid2 href2
    obtain ⟨g0, hg0, hg0e, _⟩ := hmem_of x hx
    rw [← hg0e, decFun_ref] at href2
    rw [← hg0e, decFun_dup]
    obtain ⟨hgdup, o2, ho2, ho2id, ho2dup⟩ := hinv.refsValid g0 hg0 oid2 href2
    have ho2ne : o2.id ≠ fid := by
      intro hcontra
      have : o2 = f := eq_of_mem_id hinv.idsNodup ho2 hfmem (by rw [hcontra, hfid])
      rw [this, hdup] at ho2dup
      cases ho2dup
    refine ⟨hgdup, decFun oid o2, hmem_to o2 ho2 ho2ne, ?_, ?_⟩
    · rw [decFun_id]; exact ho2id
    · rw [decFun_dup]; exact ho2dup
  · -- hashUnique
    intro x hx y hy hxdup hydup hhash
    obtain ⟨g0, hg0, hg0e, _⟩ := hmem_of x hx
    obtain ⟨g1, hg1, hg1e, _⟩ := hmem_of y hy
    rw [← hg0e, decFun_dup] at hxdup
    rw [← hg1e, decFun_dup] at hydup
    rw [← hg0e, ← hg1e, decFun_hash, decFun_hash] at hhash
    have := hinv.hashUnique g0 hg0 g1 hg1 hxdup hydup hhash
    rw [← hg0e, ← hg1e, this]
  · -- refCount
    intro o' ho' hodup
    obtain ⟨o0, ho0, ho0e, ho0ne⟩ := hmem_of o' ho'
    rw [← ho0e, decFun_dup] at hodup
    have ho0ne' : o0.id ≠ fid := by rw [← ho0e, decFun_id] at ho0ne; exact ho0ne
    have herase := countRefs_filter_erase (decRefFloor db.files oid)
      (decFun oid f) o0.id
      (List.mem_map_of_mem _ hfmem) (by rw [hmapdec]; exact hinv.idsNodup)
    simp only [decFun_id, hfid, decFun_ref, href] at herase
    rw [countRefs_decRef] at herase
    have hcnt := hinv.refCount o0 ho0 hodup
    rw [hfiles, ← ho0e, decFun_id, decFun_rc]
    by_cases ho0oid : o0.id = oid
    · rw [if_pos ho0oid]
      rw [if_pos (by rw [ho0oid])] at herase
      have hpos : 0 < countRefs db.files o0.id := by
        apply countRefs_pos db.files o0.id f hfmem
        rw [href, ho0oid]
      omega
    · rw [if_neg ho0oid]
      rw [if_neg (by simp; intro hcontra; exact ho0oid hcontra.symm)] at herase
      omega
  · -- sizes
    intro x hx
    obtain ⟨g0, hg0, hg0e, _⟩ := hmem_of x hx
    rw [← hg0e]
    constructor
    · intro hdup2
      rw [decFun_actualSize]
      rw [decFun_dup] at hdup2
      exact (hinv.sizes g0 hg0).1 hdup2
    · intro hdup2
      rw [decFun_actualSize, decFun_size]
      rw [decFun_dup] at hdup2
      exact (hinv.sizes g0 hg0).2 hdup2

/-- Deleting a duplicate whose reference was nulled out preserves the
invariant. -/
lemma inv_delete_dup_none (db : DB) (fid : Nat) (f : FileRec) (hinv : Inv db)
    (hfind : db.files.find? (fun g => g.id == fid) = some f)
    (hdup : f.isDuplicate = true) (href : f.referenceFile = none) :
    Inv (modelDelete db fid) := by
  have hfmem := List.mem_of_find?_eq_some hfind
  have hfid : f.id = fid := by simpa using List.find?_some hfind
  have hnext := modelDelete_nextId db fid
  have hnorefs := no_refs_to_dup hinv hfmem hdup
  have hnorefs3 : ∀ g ∈ db.files.filter (fun g => g.id ≠ fid),
      g.referenceFile ≠ some fid := by
    intro g hg
    rw [← hfid]
    exact hnorefs g (List.mem_filter.mp hg).1
  have hfiles : (modelDelete db fid).files = db.files.filter (fun g => g.id ≠ fid) := by
    rw [modelDelete_files_dup_none hfind hdup href, setNull_map_id hnorefs3]
  have hmem_of : ∀ x ∈ (modelDelete db fid).files, x ∈ db.files ∧ x.id ≠ fid := by
    intro x hx
    rw [hfiles] at hx
    have hx1 := List.mem_filter.mp hx
    exact ⟨hx1.1, by simpa using hx1.2⟩
  have hmem_to : ∀ g ∈ db.files, g.id ≠ fid → g ∈ (modelDelete db fid).files := by
    intro g hg hne
    rw [hfiles]
    exact List.mem_filter.mpr ⟨hg, by simp [hne]⟩
  refine ⟨?_, ?_, ?_, ?_, ?_, ?_, ?_⟩
  · intro x hx
    rw [hnext]
    exact hinv.idsBelow x (hmem_of x hx).1
  · rw [hfiles]
    exact hinv.idsNodup.sublist ((List.filter_sublist _).map _)
  · intro x hx hxdup
    exact hinv.origNoRef x (hmem_of x hx).1 hxdup
  · intro x hx oid2 href2
    obtain ⟨hxmem, _⟩ := hmem_of x hx
    obtain ⟨hgdup, o2, ho2, ho2id, ho2dup⟩ := hinv.refsValid x hxmem oid2 href2
    have ho2ne : o2.id ≠ fid := by
      intro hcontra
      have : o2 = f := eq_of_mem_id hinv.idsNodup ho2 hfmem (by rw [hcontra, hfid])
      rw [this, hdup] at ho2dup
      cases ho2dup
    exact ⟨hgdup, o2, hmem_to o2 ho2 ho2ne, ho2id, ho2dup⟩
  · intro x hx y hy hxdup hydup hhash
    exact hinv.hashUnique x (hmem_of x hx).1 y (hmem_of y hy).1 hxdup hydup hhash
  · intro o' ho' hodup
    obtain ⟨homem, _⟩ := hmem_of o' ho'
    have herase := countRefs_filter_erase db.files f o'.id hfmem hinv.idsNodup
    simp only [hfid, href] at herase
    rw [if_neg (by simp)] at herase
    rw [hfiles, hinv.refCount o' homem hodup]
    omega
  · intro x hx
    exact hinv.sizes x (hmem_of x hx).1

/-- Deleting an original row preserves the invariant. -/
lemma inv_delete_orig (db : DB) (fid : Nat) (f : FileRec) (hinv : Inv db)
    (hfind : db.files.find? (fun g => g.id == fid) = some f)
    (hdup : f.isDuplicate = false) :
    Inv (modelDelete db fid) := by
  have hfmem := List.mem_of_find?_eq_some hfind
  have hfid : f.id = fid := by simpa using List.find?_some hfind
  have hnext := modelDelete_nextId db fid
  have href : f.referenceFile = none := hinv.origNoRef f hfmem hdup
  have hfiles := modelDelete_files_orig hfind hdup
  have hmem_of : ∀ x ∈ (modelDelete db fid).files,
      ∃ g ∈ db.files, g.id ≠ fid ∧ setNullFun fid g = x := by
    intro x hx
    rw [hfiles] at hx
    obtain ⟨g, hg, hge⟩ := List.mem_map.mp hx
    have hg1 := List.mem_filter.mp hg
    exact ⟨g, hg1.1, by simpa using hg1.2, hge⟩
  have hmem_to : ∀ g ∈ db.files, g.id ≠ fid →
      setNullFun fid g ∈ (modelDelete db fid).files := by
    intro g hg hne
    rw [hfiles]
    exact List.mem_map_of_mem _ (List.mem_filter.mpr ⟨hg, by simp [hne]⟩)
  refine ⟨?_, ?_, ?_, ?_, ?_, ?_, ?_⟩
  · intro x hx
    obtain ⟨g, hg, _, hge⟩ := hmem_of x hx
    rw [hnext, ← hge, setNullFun_id]
    exact hinv.idsBelow g hg
  · rw [hfiles]
    have hmapeq : ((db.files.filter (fun g => g.id ≠ fid)).map (setNullFun fid)).map
        (fun g => g.id) = (db.files.filter (fun g => g.id ≠ fid)).map (fun g => g.id) := by
      rw [List.map_map]
      exact List.map_congr_left (fun a _ => setNullFun_id _ _)
    rw [hmapeq]
    exact hinv.idsNodup.sublist ((List.filter_sublist _).map _)
  · intro x hx hxdup
    obtain ⟨g, hg, _, hge⟩ := hmem_of x hx
    rw [← hge, setNullFun_dup] at hxdup
    rw [← hge, setNullFun_ref, hinv.origNoRef g hg hxdup]
    simp
  · intro x hx oid2 href2
    obtain ⟨g, hg, _, hge⟩ := hmem_of x hx
    rw [← hge, setNullFun_ref] at href2
    rw [← hge, setNullFun_dup]
    by_cases hgf : g.referenceFile = some fid
    · rw [if_pos hgf] at href2
      cases href2
    · rw [if_neg hgf] at href2
      have hoid2ne : oid2 ≠ fid := by
        intro hcontra
        rw [hcontra] at href2
        exact hgf href2
      obtain ⟨hgdup, o2, ho2, ho2id, ho2dup⟩ := hinv.refsValid g hg oid2 href2
      refine ⟨hgdup, setNullFun fid o2, hmem_to o2 ho2 (by rw [ho2id]; exact hoid2ne), ?_, ?_⟩
      · rw [setNullFun_id]; exact ho2id
      · rw [setNullFun_dup]; exact ho2dup
  · intro x hx y hy hxdup hydup hhash
    obtain ⟨g, hg, _, hge⟩ := hmem_of x hx
    obtain ⟨g2, hg2, _, hg2e⟩ := hmem_of y hy
    rw [← hge, setNullFun_dup] at hxdup
    rw [← hg2e, setNullFun_dup] at hydup
    rw [← hge, ← hg2e, setNullFun_hash, setNullFun_hash] at hhash
    have := hinv.hashUnique g hg g2 hg2 hxdup hydup hhash
    rw [← hge, ← hg2e, this]
  · intro o' ho' hodup
    obtain ⟨o0, ho0, ho0ne, ho0e⟩ := hmem_of o' ho'
    rw [← ho0e, setNullFun_dup] at hodup
    rw [← ho0e, setNullFun_id, setNullFun_rc]
    rw [hfiles]
    rw [countRefs_map_setNull _ fid o0.id ho0ne]
    have herase := countRefs_filter_erase db.files f o0.id hfmem hinv.idsNodup
    simp only [hfid, href] at herase
    rw [if_neg (by simp)] at herase
    rw [hinv.refCount o0 ho0 hodup]
    omega
  · intro x hx
    obtain ⟨g, hg, _, hge⟩ := hmem_of x hx
    rw [← hge]
    constructor
    · intro hdup2
      rw [setNullFun_actualSize]
      rw [setNullFun_dup] at hdup2
      exact (hinv.sizes g hg).1 hdup2
    · intro hdup2
      rw [setNullFun_actualSize, setNullFun_size]
      rw [setNullFun_dup] at hdup2
      exact (hinv.sizes g hg).2 hdup2

/-- `File.delete` preserves the invariant. -/
lemma inv_delete (db : DB) (fid : Nat) (hinv : Inv db) :
    Inv (modelDelete db fid) := by
  cases hfind : db.files.find? (fun g => g.id == fid) with
  | none => rw [modelDelete_eq_of_none hfind]; exact hinv
  | some f =>
    cases hdup : f.isDuplicate with
    | true =>
      cases href : f.referenceFile with
      | some oid => exact inv_delete_dup_some db fid f oid hinv hfind hdup href
      | none => exact inv_delete_dup_none db fid f hinv hfind hdup href
    | false => exact inv_delete_orig db fid f hinv hfind hdup

/-- Every state reachable through the API operations satisfies the
data-model invariant. -/
lemma inv_reachable {sha : Bytes → String} {db : DB}
    (h : Reachable sha db) : Inv db := by
  induction h with
  | init => exact inv_init
  | ingest db c fn ft sz _ ih =>
    cases hfd : find_duplicate db (sha c) with
    | some orig => exact inv_ingest_dup sha db c fn ft sz orig ih hfd
    | none => exact inv_ingest_orig sha db c fn ft sz ih hfd
  | del db fid _ ih => exact inv_delete db fid ih

/-- After any upload of content `c`, some non-duplicate row with hash
`sha c` is stored. -/
lemma exists_orig_after_ingest (sha : Bytes → String) (db : DB) (c : Bytes)
    (fn ft : String) (sz : Int) :
    ∃ o ∈ (serializerCreate sha db c fn ft sz).files,
      o.isDuplicate = false ∧ o.contentHash = sha c := by
  cases hfd : find_duplicate db (sha c) with
  | some orig =>
    obtain ⟨hm, hh, hd⟩ := find_duplicate_some hfd
    refine ⟨incFun orig.id orig, ?_, ?_, ?_⟩
    · rw [serializerCreate_files_dup hfd]
      exact List.mem_map_of_mem _ (List.mem_append_left _ hm)
    · rw [incFun_dup]; exact hd
    · rw [incFun_hash]; exact hh
  | none =>
    refine ⟨newOrigRec sha db c fn ft sz, ?_, rfl, rfl⟩
    rw [serializerCreate_files_orig hfd]
    exact List.mem_append_right _ (List.mem_singleton.mpr rfl)

/-- Uploads never remove the stored original for a hash. -/
lemma orig_persists (sha : Bytes → String) (db : DB) (c2 : Bytes)
    (fn ft : String) (sz : Int) (h : String)
    (hex : ∃ o ∈ db.files, o.isDuplicate = false ∧ o.contentHash = h) :
    ∃ o ∈ (serializerCreate sha db c2 fn ft sz).files,
      o.isDuplicate = false ∧ o.contentHash = h := by
  obtain ⟨o, ho, hod, hoh⟩ := hex
  cases hfd : find_duplicate db (sha c2) with
  | some orig =>
    refine ⟨incFun orig.id o, ?_, ?_, ?_⟩
    · rw [serializerCreate_files_dup hfd]
      exact List.mem_map_of_mem _ (List.mem_append_left _ ho)
    · rw [incFun_dup]; exact hod
    · rw [incFun_hash]; exact hoh
  | none =>
    refine ⟨o, ?_, hod, hoh⟩
    rw [serializerCreate_files_orig hfd]
    exact List.mem_append_left _ ho

/-- Any sequence of further uploads keeps a stored original for `h`. -/
lemma orig_persists_many (sha : Bytes → String)
    (ops : List (Bytes × String × String × Int)) (h : String) :
    ∀ db : DB, (∃ o ∈ db.files, o.isDuplicate = false ∧ o.contentHash = h) →
      ∃ o ∈ (ingestMany sha ops db).files,
        o.isDuplicate = false ∧ o.contentHash = h := by
  induction ops with
  | nil => intro db hex; exact hex
  | cons op rest ih =>
    intro db hex
    obtain ⟨c, fn, ft, sz⟩ := op
    exact ih _ (orig_persists sha db c fn ft sz h hex)

/-- When a matching original is stored, `find_duplicate` finds one. -/
lemma find_duplicate_of_exists {db : DB} {h : String}
    (hex : ∃ o ∈ db.files, o.isDuplicate = false ∧ o.contentHash = h) :
    ∃ r, find_duplicate db h = some r := by
  cases hfd : find_duplicate db h with
  | some r => exact ⟨r, rfl⟩
  | none =>
    obtain ⟨o, ho, hod, hoh⟩ := hex
    exact absurd ⟨hoh, hod⟩ (find_duplicate_none hfd o ho)

/-- An upload that hits a stored original appends a duplicate record
carrying the fresh id. -/
lemma ingest_into_matching_dup (sha : Bytes → String) (db : DB) (c : Bytes)
    (fn ft : String) (sz : Int)
    (hex : ∃ o ∈ db.files, o.isDuplicate = false ∧ o.contentHash = sha c) :
    ∃ x ∈ (serializerCreate sha db c fn ft sz).files,
      x.id = db.nextId ∧ x.isDuplicate = true ∧ x.contentHash = sha c := by
  obtain ⟨orig, hfd⟩ := find_duplicate_of_exists hex
  refine ⟨incFun orig.id (newDupRec sha db orig c fn ft sz), ?_, ?_, ?_, ?_⟩
  · rw [serializerCreate_files_dup hfd]
    exact List.mem_map_of_mem _ (List.mem_append_right _ (List.mem_singleton.mpr rfl))
  · rw [incFun_id]; rfl
  · rw [incFun_dup]; rfl
  · rw [incFun_hash]; rfl

/-- `dbTwo` is a state reachable through the API. -/
lemma dbTwo_reachable : Reachable shaC dbTwo :=
  Reachable.ingest _ [1] "b" "t" 5 (Reachable.ingest _ [1] "a" "t" 5 Reachable.init)

/-- Rounding to two decimal places moves a rational by at most 1/200. -/
lemma round2_close (q : ℚ) : |round2 q - q| ≤ 1 / 200 := by
  unfold round2
  have h := abs_sub_round (q * 100)
  have heq : ((round (q * 100) : ℤ) : ℚ) / 100 - q =
      (((round (q * 100) : ℤ) : ℚ) - q * 100) / 100 := by ring
  rw [heq, abs_div]
  have h100 : |(100 : ℚ)| = 100 := by norm_num
  rw [h100]
  have h2 : |((round (q * 100) : ℤ) : ℚ) - q * 100| ≤ 1 / 2 := by
    rw [abs_sub_comm]
    exact h
  linarith

/-! ### Claims -/

/-- Claim C5, counterexample: in a store holding two non-duplicate rows
with the same hash (upload times 0 and 1), the ingest path's lookup
`File.find_duplicate` returns the later-uploaded row, and an upload of
that content links its new record to the later-uploaded original, not
the earliest-uploaded one. -/
theorem c5_counterexample :
    find_duplicate twoOrigDB (shaC [9]) = some twoOrigB ∧
    (serializerCreate shaC twoOrigDB [9] "c" "t" 5).files.map
        (fun f => (f.id, f.referenceFile)) = [(0, none), (1, none), (2, some 1)] ∧
    twoOrigA ∈ twoOrigDB.files ∧ matchesHash (shaC [9]) twoOrigA = true ∧
    twoOrigA.uploadedAt < twoOrigB.uploadedAt := by
  refine ⟨by decide, by decide, by decide, by decide, by decide⟩

/-- Claim C5, amended: the ingest path's lookup `File.find_duplicate`
selects a latest-uploaded matching record (the model's default ordering
is newest first and `.first()` takes the head); only the model-save
fallback `File.find_duplicate_by_content` selects the
earliest-uploaded matching record. -/
theorem c5_amended :
    (∀ (db : DB) (h : String) (r : FileRec), find_duplicate db h = some r →
      r ∈ db.files ∧ matchesHash h r = true ∧
        ∀ g ∈ db.files, matchesHash h g = true → g.uploadedAt ≤ r.uploadedAt) ∧
    (∀ (db : DB) (h : String) (r : FileRec),
      find_duplicate_by_content db h = some r →
      r ∈ db.files ∧ matchesHash h r = true ∧
        ∀ g ∈ db.files, matchesHash h g = true → r.uploadedAt ≤ g.uploadedAt) := by
  constructor
  · intro db h r hfd
    have hfd' : pickNewest (db.files.filter (matchesHash h)) = some r := hfd
    have hm := List.mem_filter.mp (pickNewest_mem hfd')
    refine ⟨hm.1, hm.2, ?_⟩
    intro g hg hmg
    exact pickNewest_isMax hfd' g (List.mem_filter.mpr ⟨hg, hmg⟩)
  · intro db h r hfd
    unfold find_duplicate_by_content at hfd
    by_cases hh : h = ""
    · rw [if_pos hh] at hfd; cases hfd
    · rw [if_neg hh] at hfd
      have hm := List.mem_filter.mp (pickOldest_mem hfd)
      refine ⟨hm.1, hm.2, ?_⟩
      intro g hg hmg
      exact pickOldest_isMin hfd g (List.mem_filter.mpr ⟨hg, hmg⟩)

theorem c5_amended_witness : twoOrigA.uploadedAt ≤ twoOrigB.uploadedAt :=
  ((c5_amended.1 twoOrigDB (shaC [9]) twoOrigB (by decide)).2.2)
    twoOrigA (by decide) (by decide)

/-- Claim C6, counterexample: uploading content with a declared size of
0 produces a non-duplicate record with `actual_size = 0`, so
`actualSize == 0` does not imply `isDuplicate == true` and the claimed
biconditional fails. -/
theorem c6_counterexample :
    ¬ (∀ f ∈ (serializerCreate shaC initDB [1, 2] "a" "t" 0).files,
        ((f.actualSize = 0 ↔ f.isDuplicate = true) ∧
         (f.actualSize = f.size ↔ f.isDuplicate = false))) := by
  decide

/-- Claim C6, amended: in every reachable store, every duplicate record
has `actualSize = 0` and every non-duplicate record has
`actualSize = logicalSize`; when `logicalSize ≠ 0` the two claimed
biconditionals also hold. -/
theorem c6_amended (sha : Bytes → String) (db : DB)
    (hreach : Reachable sha db) :
    ∀ f ∈ db.files,
      (f.isDuplicate = true → f.actualSize = 0) ∧
      (f.isDuplicate = false → f.actualSize = f.size) ∧
      (f.size ≠ 0 →
        ((f.actualSize = 0 ↔ f.isDuplicate = true) ∧
         (f.actualSize = f.size ↔ f.isDuplicate = false))) := by
  intro f hf
  have hs := (inv_reachable hreach).sizes f hf
  refine ⟨hs.1, hs.2, ?_⟩
  intro hnz
  constructor
  · constructor
    · intro h0
      by_contra hnd
      rw [Bool.not_eq_true] at hnd
      have := hs.2 hnd
      rw [h0] at this
      exact hnz this.symm
    · exact hs.1
  · constructor
    · intro heq
      by_contra hnd
      rw [Bool.not_eq_false] at hnd
      have := hs.1 hnd
      rw [this] at heq
      exact hnz heq.symm
    · exact hs.2

theorem c6_amended_witness :
    (dupRec1.isDuplicate = true → dupRec1.actualSize = 0) ∧
    (dupRec1.isDuplicate = false → dupRec1.actualSize = dupRec1.size) ∧
    (dupRec1.size ≠ 0 →
      ((dupRec1.actualSize = 0 ↔ dupRec1.isDuplicate = true) ∧
       (dupRec1.actualSize = dupRec1.size ↔ dupRec1.isDuplicate = false))) :=
  c6_amended shaC dbTwo dbTwo_reachable dupRec1 (by decide)

/-- Claim C8, counterexample: on a store totalling 3 logical bytes with
1 byte saved, the returned percentage is the two-decimal rounding
33.33, not the exact value `storageSaved / totalSize * 100 = 100/3`. -/
theorem c8_counterexample :
    statsStorageSavedPercentage statsFiles3 ≠
      (statsStorageSaved statsFiles3 : ℚ) / (statsTotalSize statsFiles3 : ℚ) * 100 := by
  have h3 : statsTotalSize statsFiles3 = 3 := by decide
  have h2 : statsActualSize statsFiles3 = 2 := by decide
  have hs : statsStorageSaved statsFiles3 = 1 := by decide
  rw [statsStorageSavedPercentage, if_pos (by rw [h3]; norm_num), hs, h3]
  rw [round2]
  have hr : round (((1 : Int) : ℚ) / ((3 : Int) : ℚ) * 100 * 100) = 3333 := by
    have heq : ((1 : Int) : ℚ) / ((3 : Int) : ℚ) * 100 * 100 = 10000 / 3 := by norm_num
    rw [heq, round_eq]
    norm_num
  rw [hr]
  norm_num

/-- Claim C8, amended: the statistics return
`storageSaved = totalSize - actualSize` exactly; the percentage is 0
whenever `totalSize ≤ 0` (the guarded division is never performed on
zero), and for positive `totalSize` it equals
`storageSaved / totalSize * 100` rounded to two decimal places, hence
within 1/200 of the exact value. -/
theorem c8_amended (files : List FileRec) :
    statsStorageSaved files = statsTotalSize files - statsActualSize files ∧
    (statsTotalSize files ≤ 0 → statsStorageSavedPercentage files = 0) ∧
    (0 < statsTotalSize files →
      |statsStorageSavedPercentage files -
        (statsStorageSaved files : ℚ) / (statsTotalSize files : ℚ) * 100| ≤ 1 / 200) := by
  refine ⟨rfl, ?_, ?_⟩
  · intro hle
    rw [statsStorageSavedPercentage, if_neg (by omega)]
  · intro hpos
    rw [statsStorageSavedPercentage, if_pos hpos]
    exact round2_close _

theorem c8_amended_witness :
    |statsStorageSavedPercentage statsFiles3 -
      (statsStorageSaved statsFiles3 : ℚ) / (statsTotalSize statsFiles3 : ℚ) * 100| ≤ 1 / 200 :=
  (c8_amended statsFiles3).2.2 (by decide)

/-- Claim C1, code evaluation: the serializer ingest path does abort on
an unreadable stream with no record persisted, but the model-layer save
path does not: `File.calculate_hash` swallows the read failure and the
record is persisted with the fabricated digest
`sha256("a.txt_5_u1")`, a value derived from filename, size and a uuid
rather than from the file's content. -/
theorem c1_fallback_hash_eval :
    serializerCreateChecked shaC initDB none "a.txt" "text/plain" 5 =
      Except.error "Unable to process file" ∧
    (modelSave shaC initDB unreadableRec none "u1" true false).2.contentHash =
      shaC (encodeStr "a.txt_5_u1") ∧
    (modelSave shaC initDB unreadableRec none "u1" true false).2.contentHash ≠ "" ∧
    (modelSave shaC initDB unreadableRec none "u1" true false).1.files.length = 1 ∧
    (modelSave shaC initDB unreadableRec none "u1" true false).2.isDuplicate = false := by
  refine ⟨rfl, by decide, by decide, by decide, by decide⟩

/-- Claim C3, code evaluation: in the store `dbTwo` the original row
(id 0) is referenced by one duplicate; `File.delete` on it leaves the
physical bytes in place but still removes the original's row
(`super().delete()` runs unconditionally), nulling the duplicate's
reference, contrary to the claimed row retention. -/
theorem c3_delete_eval :
    ((dbTwo.files.filter (fun g => g.referenceFile == some 0)).length = 1) ∧
    (modelDelete dbTwo 0).blobs = dbTwo.blobs ∧
    (modelDelete dbTwo 0).files.map (fun f => (f.id, f.isDuplicate, f.referenceFile)) =
      [(1, true, none)] := by
  refine ⟨by decide, by decide, by decide⟩

/-- Claim C2: in every API-reachable store no two non-duplicate records
share the same non-empty content hash; after uploading content `c`,
some non-duplicate record with hash `sha c` is stored, and any later
upload of the same byte content (any filename, after any further
uploads) creates a record marked as a duplicate. -/
theorem c2_dedup_unique (sha : Bytes → String) (db : DB)
    (hreach : Reachable sha db) :
    (∀ f ∈ db.files, ∀ g ∈ db.files, f.isDuplicate = false →
      g.isDuplicate = false → f.contentHash = g.contentHash →
      f.contentHash ≠ "" → f = g) ∧
    (∀ (c : Bytes) (fn ft : String) (sz : Int),
      ∃ o ∈ (serializerCreate sha db c fn ft sz).files,
        o.isDuplicate = false ∧ o.contentHash = sha c) ∧
    (∀ (c : Bytes) (fn ft : String) (sz : Int)
      (ops : List (Bytes × String × String × Int))
      (fn2 ft2 : String) (sz2 : Int),
      ∃ x ∈ (serializerCreate sha
          (ingestMany sha ops (serializerCreate sha db c fn ft sz))
          c fn2 ft2 sz2).files,
        x.id = (ingestMany sha ops (serializerCreate sha db c fn ft sz)).nextId ∧
        x.isDuplicate = true ∧ x.contentHash = sha c) := by
  refine ⟨?_, ?_, ?_⟩
  · intro f hf g hg hfd hgd hh _
    exact (inv_reachable hreach).hashUnique f hf g hg hfd hgd hh
  · intro c fn ft sz
    exact exists_orig_after_ingest sha db c fn ft sz
  · intro c fn ft sz ops fn2 ft2 sz2
    apply ingest_into_matching_dup
    exact orig_persists_many sha ops (sha c) _ (exists_orig_after_ingest sha db c fn ft sz)

theorem c2_witness :
    ∃ x ∈ (serializerCreate shaC
        (ingestMany shaC [] (serializerCreate shaC initDB [1] "a" "t" 5))
        [1] "b" "t" 5).files,
      x.id = (ingestMany shaC [] (serializerCreate shaC initDB [1] "a" "t" 5)).nextId ∧
      x.isDuplicate = true ∧ x.contentHash = shaC [1] :=
  (c2_dedup_unique shaC initDB Reachable.init).2.2 [1] "a" "t" 5 [] "b" "t" 5

/-- Claim C4: in every API-reachable store, each non-duplicate record O
has `referenceCount = 1 + ` the number of duplicate records whose
reference points at O's id. -/
theorem c4_reference_count (sha : Bytes → String) (db : DB)
    (hreach : Reachable sha db) :
    ∀ o ∈ db.files, o.isDuplicate = false →
      o.referenceCount = 1 +
        (db.files.filter
          (fun d => d.isDuplicate && d.referenceFile == some o.id)).length := by
  intro o ho hod
  have hinv := inv_reachable hreach
  have h1 := hinv.refCount o ho hod
  have hfilter : db.files.filter
      (fun d => d.isDuplicate && d.referenceFile == some o.id) =
      db.files.filter (fun d => d.referenceFile == some o.id) := by
    apply List.filter_congr
    intro d hd
    by_cases hdr : d.referenceFile = some o.id
    · have := (hinv.refsValid d hd o.id hdr).1
      simp [hdr, this]
    · simp [hdr]
  rw [hfilter, ← List.countP_eq_length_filter]
  exact h1

theorem c4_witness :
    origRec1.referenceCount = 1 +
      (dbTwo.files.filter
        (fun d => d.isDuplicate && d.referenceFile == some origRec1.id)).length :=
  c4_reference_count shaC dbTwo dbTwo_reachable origRec1 (by decide) (by decide)

/-- Claim C7: deleting a duplicate record leaves the blob store
untouched, removes the duplicate's row, and maps the referenced
original's `reference_count` from n to n - 1 — which leaves an
already-zero count at 0, since the code only decrements positive
counts. -/
theorem c7_delete_duplicate (db : DB) (f : FileRec)
    (hnd : (db.files.map (fun g => g.id)).Nodup)
    (hf : f ∈ db.files) (hdup : f.isDuplicate = true) :
    (modelDelete db f.id).blobs = db.blobs ∧
    (∀ g ∈ (modelDelete db f.id).files, g.id ≠ f.id) ∧
    (∀ oid, f.referenceFile = some oid → oid ≠ f.id →
      refCountOf (modelDelete db f.id) oid =
        (refCountOf db oid).map (fun n => n - 1)) := by
  have hfind : db.files.find? (fun g => g.id == f.id) = some f :=
    find?_id_of_mem hnd hf
  refine ⟨?_, ?_, ?_⟩
  · unfold modelDelete
    rw [hfind]
    cases href : f.referenceFile <;> simp [hdup, href]
  · intro g hg
    cases href : f.referenceFile with
    | some oid =>
      rw [modelDelete_files_dup_some hfind hdup href] at hg
      obtain ⟨g0, hg0, hg0e⟩ := List.mem_map.mp hg
      have hg01 := List.mem_filter.mp hg0
      rw [← hg0e, setNullFun_id]
      simpa using hg01.2
    | none =>
      rw [modelDelete_files_dup_none hfind hdup href] at hg
      obtain ⟨g0, hg0, hg0e⟩ := List.mem_map.mp hg
      have hg01 := List.mem_filter.mp hg0
      rw [← hg0e, setNullFun_id]
      simpa using hg01.2
  · intro oid href hne
    unfold refCountOf
    rw [modelDelete_files_dup_some hfind hdup href]
    rw [find?_id_map _ _ _ (setNullFun_id f.id)]
    rw [find?_id_filter_ne _ _ _ hne]
    unfold decRefFloor
    rw [find?_id_map _ _ _ (decFun_id oid)]
    cases hfo : db.files.find? (fun g => g.id == oid) with
    | none => simp
    | some o =>
      have hoid : o.id = oid := by simpa using List.find?_some hfo
      simp [setNullFun_rc, decFun_rc, hoid]

theorem c7_witness :
    (modelDelete dbTwo dupRec1.id).blobs = dbTwo.blobs ∧
    (∀ g ∈ (modelDelete dbTwo dupRec1.id).files, g.id ≠ dupRec1.id) ∧
    (∀ oid, dupRec1.referenceFile = some oid → oid ≠ dupRec1.id →
      refCountOf (modelDelete dbTwo dupRec1.id) oid =
        (refCountOf dbTwo oid).map (fun n => n - 1)) :=
  c7_delete_duplicate dbTwo dupRec1 (by decide) (by decide) (by decide)

/-- Claim C9: `find_duplicate_by_content` returns no match for an empty
hash; a new row that still carries an empty hash through the model save
path is persisted as a non-duplicate original with no reference link;
and whenever the save path does link a duplicate, the referenced record
returned by `find_duplicate_by_content` has a non-empty hash, so an
empty-hash record is never linked as a duplicate of another empty-hash
record. -/
theorem c9_empty_hash (sha : Bytes → String) (db : DB) (r : FileRec)
    (content : Option Bytes) (uuid : String)
    (hdup : r.isDuplicate = false) (hh : r.contentHash = "")
    (hcalc : calculate_hash sha content r.originalFilename r.size uuid = "") :
    (∀ db2 : DB, find_duplicate_by_content db2 "" = none) ∧
    ((modelSave sha db r content uuid true false).2.isDuplicate = false ∧
     (modelSave sha db r content uuid true false).2.referenceFile = none ∧
     (modelSave sha db r content uuid true false).1.files =
       db.files ++ [(modelSave sha db r content uuid true false).2]) ∧
    (∀ (db2 : DB) (h : String) (o : FileRec),
      find_duplicate_by_content db2 h = some o → o.contentHash ≠ "") := by
  refine ⟨?_, ?_, ?_⟩
  · intro db2
    unfold find_duplicate_by_content
    rw [if_pos rfl]
  · refine ⟨?_, ?_, ?_⟩ <;>
      simp [modelSave, dedupDecide, insertRecord, hdup, hh, hcalc,
        find_duplicate_by_content]
  · intro db2 h o hfd
    obtain ⟨_, hh2, _, hne⟩ := find_duplicate_by_content_some hfd
    rw [hh2]
    exact hne

theorem c9_witness :
    (modelSave constShaEmpty initDB emptyHashRec (some []) "" true false).2.isDuplicate = false ∧
    (modelSave constShaEmpty initDB emptyHashRec (some []) "" true false).2.referenceFile = none ∧
    (modelSave constShaEmpty initDB emptyHashRec (some []) "" true false).1.files =
      initDB.files ++ [(modelSave constShaEmpty initDB emptyHashRec (some []) "" true false).2] :=
  (c9_empty_hash constShaEmpty initDB emptyHashRec (some []) "" rfl rfl rfl).2.1

/-- Claim C10: when the duplicate check raises during the model save
path of a new non-duplicate row, the save still persists the record,
conservatively marked non-duplicate with `actual_size = size` and no
reference link. -/
theorem c10_check_exception (sha : Bytes → String) (db : DB) (r : FileRec)
    (content : Option Bytes) (uuid : String) (hdup : r.isDuplicate = false) :
    (modelSave sha db r content uuid true true).2.isDuplicate = false ∧
    (modelSave sha db r content uuid true true).2.actualSize = r.size ∧
    (modelSave sha db r content uuid true true).2.referenceFile = none ∧
    (modelSave sha db r content uuid true true).1.files =
      db.files ++ [(modelSave sha db r content uuid true true).2] := by
  refine ⟨?_, ?_, ?_, ?_⟩ <;> simp [modelSave, dedupDecide, insertRecord, hdup]

theorem c10_witness :
    (modelSave shaC initDB unreadableRec (some [1]) "u" true true).2.isDuplicate = false ∧
    (modelSave shaC initDB unreadableRec (some [1]) "u" true true).2.actualSize = unreadableRec.size ∧
    (modelSave shaC initDB unreadableRec (some [1]) "u" true true).2.referenceFile = none ∧
    (modelSave shaC initDB unreadableRec (some [1]) "u" true true).1.files =
      initDB.files ++ [(modelSave shaC initDB unreadableRec (some [1]) "u" true true).2] :=
  c10_check_exception shaC initDB unreadableRec (some [1]) "u" rfl

end SmartVault
